import Mathlib

/-!
Verification development for the `raga` media-library ingestion tool.

The two Python sources `src/song_retriever.py` and `src/remove_artists.py`
are shallowly embedded here.  Strings are modelled as `List Char` (`Str`);
machine text processing (`str.lower`, `str.isalnum`, `str.split`,
`str.strip`, `"\t"`-splitting with a maxsplit bound) is modelled by
executable Lean functions restricted to the ASCII behaviour of the
corresponding Python operations.  File contents are modelled as `Str`,
file systems as association lists, and the SHA-256 digest of a file as an
arbitrary function of the file's bytes (so equal bytes always give equal
digests, as §4.4 of the spec requires of the real hash).

Python `float` timestamps are modelled by their decimal text: Python
guarantees `float(str(x)) == x` and `str(float(s)) == s` for canonical
representations `s`, so a float value is represented by its canonical
text and `float(...)` by syntactic acceptance of a float literal.
-/

/-- ASCII whitespace, matching the characters Python's `str.strip` /
`str.split()` treat as whitespace in the ASCII range. -/
def isWS (c : Char) : Bool :=
  c == ' ' || c == '\t' || c == '\n' || c == '\r' || c == '\x0b' || c == '\x0c'

/-- ASCII model of Python's `str.isalnum` character test. -/
def isAlnumA (c : Char) : Bool :=
  (decide ('0' ≤ c) && decide (c ≤ '9')) ||
  (decide ('a' ≤ c) && decide (c ≤ 'z')) ||
  (decide ('A' ≤ c) && decide (c ≤ 'Z'))

/-- ASCII model of Python's per-character `str.lower`. -/
def pyLower (c : Char) : Char :=
  if decide ('A' ≤ c) && decide (c ≤ 'Z') then Char.ofNat (c.toNat + 32) else c

/-- Lower-case hexadecimal digit, the alphabet of `hashlib.sha256(...).hexdigest()`. -/
def isHexChar (c : Char) : Bool :=
  (decide ('0' ≤ c) && decide (c ≤ '9')) || (decide ('a' ≤ c) && decide (c ≤ 'f'))

/-- Strings are modelled as lists of characters. -/
abbrev Str := List Char

/-- Lean's packed strings and our model strings. -/
def strOf (s : String) : Str := s.data

/-- Python's `str.strip()` (ASCII model): `dropWhile isWS` from both ends. -/
def stripWS (l : Str) : Str :=
  ((l.dropWhile isWS).reverse.dropWhile isWS).reverse

/-- Prepend a character onto the first piece of a split result. -/
def withHead (c : Char) : List Str → List Str
  | [] => [[c]]
  | p :: ps => (c :: p) :: ps

/-- Universal-newline translation performed by Python when a file is
opened in text mode (`open(path, "r")`): `"\r\n"` and a lone `"\r"` are
both read back as `"\n"`. -/
def normNewlines : Str → Str
  | [] => []
  | '\r' :: '\n' :: cs => '\n' :: normNewlines cs
  | '\r' :: cs => '\n' :: normNewlines cs
  | c :: cs => c :: normNewlines cs

/-- Split on line-feed characters (one piece per line, a final empty
piece after a trailing newline). -/
def splitLinesLF : Str → List Str
  | [] => [[]]
  | c :: cs => if c = '\n' then [] :: splitLinesLF cs else withHead c (splitLinesLF cs)

/-- Models iterating the lines of a text-mode file: universal-newline
translation first, then one piece per `'\n'`-terminated line. -/
def splitLines (l : Str) : List Str := splitLinesLF (normNewlines l)

/-- Python's `line.split("\t", k)`: split on tab characters, performing at
most `k` splits, the unsplit remainder becoming the last piece. -/
def splitTabMax (k : Nat) : Str → List Str
  | [] => [[]]
  | c :: cs =>
    match k with
    | 0 => [c :: cs]
    | k' + 1 => if c = '\t' then [] :: splitTabMax k' cs else withHead c (splitTabMax (k' + 1) cs)

/-- Boolean prefix test on lists over a decidable-equality type. -/
def isPrefixB {α : Type} [DecidableEq α] : List α → List α → Bool
  | [], _ => true
  | _ :: _, [] => false
  | a :: as, b :: bs => decide (a = b) && isPrefixB as bs

/-- Contiguous-subsequence test: does `pat` occur consecutively inside the
second list?  Models Python's `sub in s` on strings and the index-window
loop of `text_matches_artist` on token lists. -/
def containsSeq {α : Type} [DecidableEq α] (pat : List α) : List α → Bool
  | [] => isPrefixB pat []
  | x :: xs => isPrefixB pat (x :: xs) || containsSeq pat xs

/-- Python `dict` lookup on an association list. -/
def alookup {β : Type} (k : Str) : List (Str × β) → Option β
  | [] => none
  | (k', v) :: rest => if k = k' then some v else alookup k rest

/-- Python `dict` assignment `d[k] = v`: replace in place if the key is
present (keeping its position), else append at the end. -/
def dictInsert {β : Type} (k : Str) (v : β) : List (Str × β) → List (Str × β)
  | [] => [(k, v)]
  | (k', v') :: rest => if k = k' then (k, v) :: rest else (k', v') :: dictInsert k v rest

/-- Model of `del d[k]` / `os.remove`: drop the entry with the given key. -/
def removeKey {β : Type} (k : Str) (l : List (Str × β)) : List (Str × β) :=
  l.filter (fun p => !decide (p.1 = k))

namespace RemoveArtists

/-- Model of `remove_artists.normalize` (src/remove_artists.py lines 23-34), core on
`Str`: lower-case, keep alphanumerics, map every other character
(whitespace or punctuation alike — both `elif` branches append `" "`) to a
space, then `" ".join(s.split())`. -/
def cleanChar (c : Char) : Char :=
  if isAlnumA c then c else ' '

/-- One character of `normalize`: lower then keep-or-space. -/
def outChar (c : Char) : Char := cleanChar (pyLower c)

/-- Python's `str.split()` (no separator): whitespace-delimited words. -/
def wordsAux (cur : Str) : Str → List Str
  | [] => if cur = [] then [] else [cur.reverse]
  | c :: cs =>
    if isWS c then
      if cur = [] then wordsAux [] cs else cur.reverse :: wordsAux [] cs
    else wordsAux (c :: cur) cs

/-- Python's `str.split()` with no arguments. -/
def wordsOf (l : Str) : List Str := wordsAux [] l

/-- Python's `" ".join(ws)`. -/
def joinWords : List Str → Str
  | [] => []
  | [w] => w
  | w :: v :: ws => w ++ ' ' :: joinWords (v :: ws)

/-- Model of `normalize` on model strings (src/remove_artists.py lines 23-34). -/
def normalizeCore (l : Str) : Str :=
  joinWords (wordsOf (l.map outChar))

/-- Model of `remove_artists.normalize` on packed strings. -/
def normalize (s : String) : String :=
  ⟨normalizeCore s.data⟩

/-- One target-name entry of `build_artist_index`
(src/remove_artists.py lines 47-59). -/
structure ArtistEntry where
  name : Str
  norm : Str
  compact : Str
  tokens : List Str
  deriving DecidableEq

/-- Loop body of `build_artist_index`: `norm = normalize(name)`,
`compact = norm.replace(" ", "")`, `tokens = norm.split()`. -/
def artistEntry (name : Str) : ArtistEntry :=
  let norm := normalizeCore name
  { name := name
    norm := norm
    compact := norm.filter (fun c => !decide (c = ' '))
    tokens := wordsOf norm }

/-- Model of `build_artist_index` (src/remove_artists.py lines 47-59). -/
def build_artist_index (artists : List Str) : List ArtistEntry :=
  artists.map artistEntry

/-- Model of `text_matches_artist` (src/remove_artists.py lines 62-77): empty
normalized text never matches; compact containment on the space-stripped
normalized text; else the entry's token sequence as a contiguous window of
the candidate's tokens. -/
def text_matches_artist (text : Str) (entry : ArtistEntry) : Bool :=
  let text_norm := normalizeCore text
  if text_norm = [] then false
  else if entry.compact ≠ [] &&
      containsSeq entry.compact (text_norm.filter (fun c => !decide (c = ' '))) then true
  else
    let tokens := entry.tokens
    if tokens = [] then false
    else
      let text_tokens := wordsOf text_norm
      if text_tokens.length < tokens.length then false
      else containsSeq tokens text_tokens

end RemoveArtists

/-! ### Python numeric literals

`int(s)` and `float(s)` as used by `load_hash_cache`, and the decimal
rendering used by `f"...{size}..."` formatting, restricted to ASCII. -/

/-- Digit run with optional single underscores between digits, the digit
part of Python's `int()` / `float()` grammar: first and last characters
are digits, every character is a digit or `'_'`, no two consecutive
underscores. -/
def noDoubleUS : Str → Bool
  | [] => true
  | [_] => true
  | c :: c2 :: cs => !(decide (c = '_') && decide (c2 = '_')) && noDoubleUS (c2 :: cs)

/-- Validity of a digit run for Python `int()` / `float()`. -/
def pyDigitsOk (l : Str) : Bool :=
  match l with
  | [] => false
  | c :: _ =>
    c.isDigit && (match l.getLast? with
      | none => false
      | some d => d.isDigit) &&
    l.all (fun c => c.isDigit || decide (c = '_')) && noDoubleUS l

/-- Numeric value of a digit run, underscores skipped. -/
def pyDigitsNum (l : Str) : Nat :=
  l.foldl (fun acc c => if c = '_' then acc else acc * 10 + (c.toNat - 48)) 0

/-- Parse a digit run per Python's grammar. -/
def pyDigits (l : Str) : Option Nat :=
  if pyDigitsOk l then some (pyDigitsNum l) else none

/-- Python's `int(s)` on a text field: strip whitespace, optional sign,
digit run; `none` models a raised `ValueError`. -/
def parsePyInt (s : Str) : Option Int :=
  match stripWS s with
  | [] => none
  | c :: ds =>
    if c = '+' then (pyDigits ds).map Int.ofNat
    else if c = '-' then (pyDigits ds).map (fun n => -(n : Int))
    else (pyDigits (c :: ds)).map Int.ofNat

/-- Decimal digit character. -/
def digitChar (d : Nat) : Char := Char.ofNat (48 + d)

/-- Decimal rendering of a natural number (fuel-based so that it is
structurally recursive and kernel-evaluable). -/
def natDigitsAux : Nat → Nat → Str
  | 0, _ => []
  | fuel + 1, n =>
    if n < 10 then [digitChar n]
    else natDigitsAux fuel (n / 10) ++ [digitChar (n % 10)]

/-- Decimal rendering of a natural number, as produced by Python `str`. -/
def natRepr (n : Nat) : Str := natDigitsAux (n + 1) n

/-- Decimal rendering of an integer, as produced by Python `str` /
f-string formatting. -/
def intRepr (z : Int) : Str :=
  if z < 0 then '-' :: natRepr z.natAbs else natRepr z.toNat

/-- Split at the first `e`/`E`, for the exponent part of a float literal. -/
def splitExp : Str → Str × Option Str
  | [] => ([], none)
  | c :: cs =>
    if c = 'e' ∨ c = 'E' then ([], some cs)
    else
      let p := splitExp cs
      (c :: p.1, p.2)

/-- Drop one optional leading sign. -/
def dropSign : Str → Str
  | '+' :: r => r
  | '-' :: r => r
  | r => r

/-- Full split on a separator character (Python `s.split(sep)` with no
maxsplit), used for the `.` of a float literal. -/
def splitOnC (sep : Char) : Str → List Str
  | [] => [[]]
  | c :: cs => if c = sep then [] :: splitOnC sep cs else withHead c (splitOnC sep cs)

/-- Mantissa of a float literal: `digits`, `digits.`, `digits.digits` or
`.digits`. -/
def mantOk (l : Str) : Bool :=
  match splitOnC '.' l with
  | [a] => (pyDigits a).isSome
  | [a, b] =>
    if a = [] then (pyDigits b).isSome
    else (pyDigits a).isSome && (decide (b = []) || (pyDigits b).isSome)
  | _ => false

/-- Acceptance of Python's `float(s)`: strip whitespace, optional sign,
then a decimal mantissa with optional exponent, or `inf`/`infinity`/`nan`
case-insensitively.  `false` models a raised `ValueError`. -/
def pyFloatAccepts (s : Str) : Bool :=
  let t := stripWS s
  let bodyL := dropSign (t.map pyLower)
  (decide (bodyL = strOf "inf") || decide (bodyL = strOf "infinity") ||
   decide (bodyL = strOf "nan")) ||
  (let body := dropSign t
   let p := splitExp body
   mantOk p.1 && (match p.2 with
     | none => true
     | some ex => (pyDigits (dropSign ex)).isSome))

namespace SongRetriever

/-- One value of the hash cache after `load_hash_cache`
(src/song_retriever.py lines 308-330): content hash, `int` size and
`float` modification time, the float being represented by its canonical
decimal text (see the module comment). -/
structure CEntry where
  hash : Str
  size : Int
  mtime : Str
  deriving DecidableEq

/-- The record line `f"{file_hash}\t{rel_path}\t{size}\t{mtime}"` written
by `save_hash_cache` and `update_hash_cache`. -/
def entryLine (k : Str) (e : CEntry) : Str :=
  e.hash ++ '\t' :: (k ++ '\t' :: (intRepr e.size ++ '\t' :: e.mtime))

/-- Parse one (already split-off) line of the store, as the loop body of
`load_hash_cache` does: strip, skip blanks, `split("\t", 3)`, require
exactly four fields, `int(size_text)`, `float(mtime_text)`; any failure
skips the line. -/
def parseLine (l : Str) : Option (Str × CEntry) :=
  let t := stripWS l
  if t = [] then none
  else
    match splitTabMax 3 t with
    | [h, k, s, m] =>
      match parsePyInt s with
      | none => none
      | some sz => if pyFloatAccepts m then some (k, ⟨h, sz, stripWS m⟩) else none
    | _ => none

/-- Fold the parsed lines into the `cache` dict of `load_hash_cache`. -/
def loadLines (ls : List Str) : List (Str × CEntry) :=
  ls.foldl (fun d l =>
    match parseLine l with
    | none => d
    | some kv => dictInsert kv.1 kv.2 d) []

/-- Model of `load_hash_cache` (src/song_retriever.py lines 308-330) on a file
content. -/
def load_hash_cache (content : Str) : List (Str × CEntry) :=
  loadLines (splitLines content)

/-- Insert an entry into a list kept ordered by Python string `<`
(code-point lexicographic). -/
def strLtB : Str → Str → Bool
  | [], [] => false
  | [], _ :: _ => true
  | _ :: _, [] => false
  | a :: as, b :: bs => if a < b then true else if b < a then false else strLtB as bs

/-- Insertion step of sorting by relative path. -/
def insertByKey (p : Str × CEntry) : List (Str × CEntry) → List (Str × CEntry)
  | [] => [p]
  | q :: rest => if strLtB q.1 p.1 then q :: insertByKey p rest else p :: q :: rest

/-- Model of `sorted(cache.keys())`: the cache in ascending key order. -/
def sortByKey (l : List (Str × CEntry)) : List (Str × CEntry) :=
  l.foldr insertByKey []

/-- Model of `save_hash_cache` (src/song_retriever.py lines 333-340): rewrite the
store, one `entryLine` plus newline per entry, keys sorted. -/
def save_hash_cache (cache : List (Str × CEntry)) : Str :=
  (sortByKey cache).foldr (fun p acc => entryLine p.1 p.2 ++ '\n' :: acc) []

end SongRetriever

namespace RemoveArtists

/-- One value of `remove_artists.load_hash_cache`
(src/remove_artists.py lines 170-187): hash, size and mtime fields kept
as raw text, no numeric validation. -/
structure RAEntry where
  hash : Str
  sizeText : Str
  mtimeText : Str
  deriving DecidableEq

/-- Loop body of `remove_artists.load_hash_cache`: strip, skip blanks,
`split("\t", 3)`, require exactly four fields; the three value fields are
stored verbatim. -/
def parseLineRA (l : Str) : Option (Str × RAEntry) :=
  let t := stripWS l
  if t = [] then none
  else
    match splitTabMax 3 t with
    | [h, k, s, m] => some (k, ⟨h, s, m⟩)
    | _ => none

/-- Fold the parsed lines into the `cache` dict. -/
def loadLinesRA (ls : List Str) : List (Str × RAEntry) :=
  ls.foldl (fun d l =>
    match parseLineRA l with
    | none => d
    | some kv => dictInsert kv.1 kv.2 d) []

/-- Model of `remove_artists.load_hash_cache` (src/remove_artists.py lines 170-187)
on a file content. -/
def load_hash_cache (content : Str) : List (Str × RAEntry) :=
  loadLinesRA (splitLines content)

/-- Model of `prune_hash_cache` (src/remove_artists.py lines 200-216) past the
load: iterate over the keys, delete the entries whose path no longer
exists, count them.  `ex rel` models `os.path.exists(os.path.join(base_dir,
rel_path))`. -/
def pruneGo (ex : Str → Bool) : List (Str × RAEntry) → List (Str × RAEntry) × Nat
  | [] => ([], 0)
  | (k, v) :: rest =>
    let p := pruneGo ex rest
    if ex k then ((k, v) :: p.1, p.2) else (p.1, p.2 + 1)

/-- Model of `prune_hash_cache` (src/remove_artists.py lines 200-216): returns the
pruned cache, the removed count, and whether `save_hash_cache` was called
to rewrite the store (`removed and not dry_run`); an empty cache returns
immediately. -/
def prune_hash_cache (ex : Str → Bool) (dryRun : Bool) (cache : List (Str × RAEntry)) :
    List (Str × RAEntry) × Nat × Bool :=
  if cache = [] then (cache, 0, false)
  else
    let p := pruneGo ex cache
    if p.2 ≠ 0 ∧ dryRun then (p.1, p.2, false)
    else if p.2 ≠ 0 then (p.1, p.2, true)
    else (p.1, p.2, false)

end RemoveArtists

namespace SongRetriever

/-- The stat data and bytes of one file on disk.  `rel` is
`os.path.relpath(path, base_dir)`, `mtime` the canonical decimal text of
`stat.st_mtime` (see the module comment), and `content` abstracts the
file's bytes. -/
structure FileInfo where
  rel : Str
  size : Int
  mtime : Str
  content : Nat
  deriving DecidableEq

/-- The module state `HASH_CACHE_STATE` set by `set_hash_cache_state`
(src/song_retriever.py lines 343-352): the in-memory entries dict and the
cache file's content on disk. -/
structure CacheState where
  entries : List (Str × CEntry)
  content : Str
  deriving DecidableEq

/-- The state touched by `download_audio`: the files on disk (absolute
path, keyed), the `known_hashes` dedup set, and `HASH_CACHE_STATE`
(`none` models the unset state). -/
structure DLState where
  files : List (Str × FileInfo)
  knownHashes : List Str
  cache : Option CacheState
  deriving DecidableEq

/-- Model of `update_hash_cache` (src/song_retriever.py lines 355-372): no-op when
the module state is unset or `os.stat` fails (the file is absent);
otherwise set the in-memory entry and append one record line to the cache
file. -/
def update_hash_cache (st : DLState) (filePath : Str) (fileHash : Str) : DLState :=
  match st.cache with
  | none => st
  | some cs =>
    match alookup filePath st.files with
    | none => st
    | some fi =>
      let e : CEntry := ⟨fileHash, fi.size, fi.mtime⟩
      { st with cache := some ⟨dictInsert fi.rel e cs.entries,
                              cs.content ++ entryLine fi.rel e ++ ['\n']⟩ }

/-- Model of `download_audio` (src/song_retriever.py lines 387-419) from the point
where the yt-dlp retry loop has finished: `produced` is the result of
`find_downloaded_file` (`none` when no file appeared, in which case the
function already returned `None`).  `hashF` models `hash_file`
(src/song_retriever.py lines 265-270) on the file's bytes, `none`
modelling a raised `OSError`.  A digest already in `known_hashes` deletes
the file and returns `None`; a new digest is registered and appended to
the hash cache; a hashing failure returns the path untouched. -/
def download_audio (hashF : Nat → Option Str) (st : DLState) (produced : Option Str) :
    Option Str × DLState :=
  match produced with
  | none => (none, st)
  | some downloaded =>
    match alookup downloaded st.files with
    | none => (some downloaded, st)
    | some fi =>
      match hashF fi.content with
      | none => (some downloaded, st)
      | some h =>
        if h ∈ st.knownHashes then
          (none, { st with files := removeKey downloaded st.files })
        else
          update_hash_cache { st with knownHashes := h :: st.knownHashes } downloaded h
            |> fun st1 => (some downloaded, st1)

/-- Add to the `hashes` set of `build_audio_hash_index`. -/
def insertHash (h : Str) (l : List Str) : List Str :=
  if h ∈ l then l else l ++ [h]

/-- The freshness test of `build_audio_hash_index` (src/song_retriever.py
line 294): the cached hash is trusted iff an entry exists whose size and
mtime both equal the file's current stat values. -/
def freshHash (cache : List (Str × CEntry)) (fi : FileInfo) : Option Str :=
  match alookup fi.rel cache with
  | some ce => if ce.size = fi.size ∧ ce.mtime = fi.mtime then some ce.hash else none
  | none => none

/-- Loop body of `build_audio_hash_index` (src/song_retriever.py lines
281-302) for one audio file: reuse the cached hash when size and mtime
both match the stat values, else recompute via `hashF` (skipping the file
when hashing fails), and record the result in `hashes` and `new_cache`. -/
def scanStep (hashF : Nat → Option Str) (cache : List (Str × CEntry))
    (acc : List Str × List (Str × CEntry)) (fi : FileInfo) :
    List Str × List (Str × CEntry) :=
  match freshHash cache fi with
  | some h => (insertHash h acc.1, dictInsert fi.rel ⟨h, fi.size, fi.mtime⟩ acc.2)
  | none =>
    match hashF fi.content with
    | none => acc
    | some h => (insertHash h acc.1, dictInsert fi.rel ⟨h, fi.size, fi.mtime⟩ acc.2)

/-- Model of `build_audio_hash_index` (src/song_retriever.py lines 273-305) over
the audio files found by the `os.walk` scan (`fs`, in walk order), with
`cache` the result of `load_hash_cache`: returns the seeded dedup set and
the rebuilt `new_cache`. -/
def build_audio_hash_index (hashF : Nat → Option Str) (cache : List (Str × CEntry))
    (fs : List FileInfo) : List Str × List (Str × CEntry) :=
  fs.foldl (scanStep hashF cache) ([], [])

/-- Constant `SPOTIFY_ATTEMPTS` (src/song_retriever.py line 47). -/
def SPOTIFY_ATTEMPTS : Nat := 3

/-- The retry loop of `spotify_call` (src/song_retriever.py lines
375-384): `op n` is the outcome of the wrapped call on attempt `n`
(`Except.error` modelling a raised exception).  Returns the result
(`none` after all attempts fail — the loop never re-raises) and the
number of `time.sleep(RETRY_SLEEP_SECONDS)` suspensions performed. -/
def retryLoop {α : Type} (op : Nat → Except Unit α) : Nat → Nat → Option α × Nat
  | _, 0 => (none, 0)
  | attempt, remaining + 1 =>
    match op attempt with
    | Except.ok v => (some v, 0)
    | Except.error _ =>
      if remaining = 0 then (none, 0)
      else
        let p := retryLoop op (attempt + 1) remaining
        (p.1, p.2 + 1)

/-- Model of `spotify_call` (src/song_retriever.py lines 375-384). -/
def spotify_call {α : Type} (op : Nat → Except Unit α) : Option α × Nat :=
  retryLoop op 1 SPOTIFY_ATTEMPTS

end SongRetriever

namespace SongRetriever

/-- The fields of one store line: strip, then `split("\t", 3)`. -/
def lineFields (l : Str) : List Str := splitTabMax 3 (stripWS l)

/-- A store line that `song_retriever.load_hash_cache` accepts: non-blank,
exactly four tab-separated fields, integer size field, float mtime
field. -/
def srLineOk (l : Str) : Bool :=
  !decide (stripWS l = []) &&
  (match lineFields l with
   | [_, _, s, m] => (parsePyInt s).isSome && pyFloatAccepts m
   | _ => false)

/-- A valid content hash: a non-empty string of lower-case hex digits,
the alphabet of `hashlib.sha256(...).hexdigest()`. -/
def hashWF (h : Str) : Bool := !decide (h = []) && h.all isHexChar

/-- A relative path storable in the line-oriented format: free of the tab
field separator and of both record-breaking characters — the newline
written by `save_hash_cache`, and the carriage return, which Python's
text-mode read also translates into a record break. -/
def keyWF (k : Str) : Bool :=
  k.all (fun c => !decide (c = '\t') && !decide (c = '\n') && !decide (c = '\r'))

/-- The canonical text of a float modification time: accepted by
`float(...)` and whitespace-free (Python's `str` of a float never
contains whitespace). -/
def mtimeWF (m : Str) : Bool := pyFloatAccepts m && m.all (fun c => !isWS c)

/-- Well-formedness of one cache entry for the round-trip property. -/
def entryWF (k : Str) (e : CEntry) : Bool :=
  hashWF e.hash && keyWF k && mtimeWF e.mtime

/-- A well-formed cache mapping: distinct keys, each entry well formed. -/
def cacheWF (cache : List (Str × CEntry)) : Prop :=
  (cache.map Prod.fst).Nodup ∧ ∀ p ∈ cache, entryWF p.1 p.2 = true

instance (cache : List (Str × CEntry)) : Decidable (cacheWF cache) := by
  unfold cacheWF; infer_instance

end SongRetriever

namespace RemoveArtists

/-- A store line that `remove_artists.load_hash_cache` accepts: non-blank
and exactly four tab-separated fields — this loader performs no numeric
validation. -/
def raLineOk (l : Str) : Bool :=
  !decide (stripWS l = []) &&
  (match SongRetriever.lineFields l with
   | [_, _, _, _] => true
   | _ => false)

end RemoveArtists

/-! ### Claim C2: `normalize("Ab!c  Def")` -/

/-- C2, counterexample: the claim says `normalize "Ab!c  Def" = "abc def"`,
but the code maps the punctuation character `!` to a space (both non-kept
branches append `" "`), so the result is `"ab c def"`, not `"abc def"`. -/
theorem normalize_example_claim_false :
    ¬ (RemoveArtists.normalize "Ab!c  Def" = "abc def") := by decide

/-- C2 (amended): `normalize` applied to `"Ab!c  Def"` returns
`"ab c def"` — the `!` becomes a space, which survives as a single
separating space after collapsing. -/
theorem normalize_example_eval :
    RemoveArtists.normalize "Ab!c  Def" = "ab c def" := by decide

/-! ### Claim C3: order-sensitivity of the Beatles entry -/

/-- C3: for the target entry built from `"The Beatles"`, matching is
order-sensitive: `"the beatles revolution.mp3"` matches (its compact form
contains `"thebeatles"`), while `"beatles the white album"` does not — the
token sequence `["the","beatles"]` does not occur contiguously and the
compact form is not a substring of the space-stripped candidate. -/
theorem matches_beatles_order_sensitive :
    RemoveArtists.text_matches_artist (strOf "the beatles revolution.mp3")
      (RemoveArtists.artistEntry (strOf "The Beatles")) = true
    ∧ RemoveArtists.text_matches_artist (strOf "beatles the white album")
      (RemoveArtists.artistEntry (strOf "The Beatles")) = false := by decide

/-! ### Claim C4: the retry executor -/

/-- C4: with the fixed budget of 3 attempts, an operation failing on
attempts 1 and 2 and succeeding on attempt 3 makes `spotify_call` return
that success after exactly two sleeps, and an operation failing all three
attempts makes it return the failure indicator `none` (the loop swallows
the exception and falls through — it can never re-raise, as the total
return type shows). -/
theorem spotify_call_retry_spec {α : Type} (op : Nat → Except Unit α) (v : α)
    (h1 : op 1 = Except.error ()) (h2 : op 2 = Except.error ()) :
    (op 3 = Except.ok v → SongRetriever.spotify_call op = (some v, 2))
    ∧ (op 3 = Except.error () → SongRetriever.spotify_call op = (none, 2)) := by
  constructor <;> intro h3 <;>
    simp [SongRetriever.spotify_call, SongRetriever.SPOTIFY_ATTEMPTS,
      show (3 : Nat) = 2 + 1 from rfl, SongRetriever.retryLoop, h1, h2, h3]

/-- Concrete instance of the retry-executor claim. -/
theorem spotify_call_retry_witness :
    SongRetriever.spotify_call (fun n => if n = 3 then Except.ok 42 else Except.error ()) =
      (some 42, 2)
    ∧ SongRetriever.spotify_call (fun _ => (Except.error () : Except Unit Nat)) = (none, 2) :=
  ⟨(spotify_call_retry_spec _ 42 rfl rfl).1 rfl,
   (spotify_call_retry_spec _ 0 rfl rfl).2 rfl⟩

/-! ### Claim C8: pruning the hash cache -/

/-- C8: `prune_hash_cache` (outside dry-run mode) keeps exactly the
entries whose relative path still exists, unchanged and in order; returns
the number of removed entries; and rewrites the cache file exactly when
at least one entry was removed — in particular an empty or already-clean
cache causes no write. -/
theorem prune_hash_cache_spec (ex : Str → Bool) (cache : List (Str × RemoveArtists.RAEntry)) :
    RemoveArtists.prune_hash_cache ex false cache =
      (cache.filter (fun p => ex p.1),
       cache.countP (fun p => !(ex p.1)),
       decide (cache.countP (fun p => !(ex p.1)) ≠ 0)) := by
  have hgo : ∀ l : List (Str × RemoveArtists.RAEntry),
      RemoveArtists.pruneGo ex l = (l.filter (fun p => ex p.1), l.countP (fun p => !(ex p.1))) := by
    intro l
    induction l with
    | nil => rfl
    | cons q rest ih =>
      obtain ⟨k, v⟩ := q
      by_cases hk : ex k = true <;>
        simp [RemoveArtists.pruneGo, ih, List.filter_cons, List.countP_cons, hk]
  unfold RemoveArtists.prune_hash_cache
  by_cases hnil : cache = []
  · subst hnil; simp
  · simp only [if_neg hnil, hgo]
    by_cases hz : cache.countP (fun p => !(ex p.1)) = 0 <;> simp [hz]

/-! ### Claim C1: duplicate handling in `download_audio` -/

namespace SongRetriever

/-- C1: once a download has produced a file that hashes successfully and
the hash-cache state is set, a digest already in the dedup set makes
`download_audio` delete the file, leave the dedup set and hash cache
untouched, and return `none`; a new digest is returned as a success, added
to the dedup set, recorded in the in-memory entries, and persisted by
appending exactly one record line to the cache file. -/
theorem download_audio_dedup_spec (hashF : Nat → Option Str) (st : DLState)
    (p : Str) (fi : FileInfo) (h : Str) (cs : CacheState)
    (hfile : alookup p st.files = some fi)
    (hhash : hashF fi.content = some h)
    (hcs : st.cache = some cs) :
    (h ∈ st.knownHashes →
      download_audio hashF st (some p) =
        (none, { st with files := removeKey p st.files }))
    ∧ (h ∉ st.knownHashes →
      download_audio hashF st (some p) =
        (some p,
         { files := st.files
           knownHashes := h :: st.knownHashes
           cache := some ⟨dictInsert fi.rel ⟨h, fi.size, fi.mtime⟩ cs.entries,
                          cs.content ++ entryLine fi.rel ⟨h, fi.size, fi.mtime⟩ ++ ['\n']⟩ })) := by
  constructor <;> intro hmem <;>
    simp [download_audio, hfile, hhash, hmem, update_hash_cache, hcs]

/-- Concrete duplicate and non-duplicate runs of `download_audio`. -/
theorem download_audio_dedup_witness :
    download_audio (fun _ => some (strOf "aa"))
        ⟨[(strOf "/m/a.mp3", ⟨strOf "a.mp3", 1, strOf "1.5", 0⟩)],
         [strOf "aa"], some ⟨[], []⟩⟩ (some (strOf "/m/a.mp3")) =
      (none, ⟨[], [strOf "aa"], some ⟨[], []⟩⟩)
    ∧ download_audio (fun _ => some (strOf "aa"))
        ⟨[(strOf "/m/a.mp3", ⟨strOf "a.mp3", 1, strOf "1.5", 0⟩)],
         [], some ⟨[], []⟩⟩ (some (strOf "/m/a.mp3")) =
      (some (strOf "/m/a.mp3"),
       ⟨[(strOf "/m/a.mp3", ⟨strOf "a.mp3", 1, strOf "1.5", 0⟩)],
        [strOf "aa"],
        some ⟨[(strOf "a.mp3", ⟨strOf "aa", 1, strOf "1.5"⟩)],
              entryLine (strOf "a.mp3") ⟨strOf "aa", 1, strOf "1.5"⟩ ++ ['\n']⟩⟩) := by
  constructor
  · exact (download_audio_dedup_spec _ _ _ ⟨strOf "a.mp3", 1, strOf "1.5", 0⟩ (strOf "aa")
      ⟨[], []⟩ (by decide) rfl rfl).1 (by decide)
  · exact (download_audio_dedup_spec _ _ _ ⟨strOf "a.mp3", 1, strOf "1.5", 0⟩ (strOf "aa")
      ⟨[], []⟩ (by decide) rfl rfl).2 (by decide)

/-! ### Claim C10: hashing failure after a successful download -/

/-- C10 (amended): when the produced file cannot be hashed (`hash_file`
raises `OSError`), `download_audio` returns the downloaded path and leaves
the whole state — files on disk, dedup set, hash cache — completely
unchanged, so the file is kept but takes no part in duplicate detection
for the remainder of this run.  (The "never in later runs" part of the
claim is refuted by `failed_hash_participates_later`.) -/
theorem download_audio_hash_error_spec (hashF : Nat → Option Str) (st : DLState)
    (p : Str) (fi : FileInfo)
    (hfile : alookup p st.files = some fi)
    (hhash : hashF fi.content = none) :
    download_audio hashF st (some p) = (some p, st) := by
  simp [download_audio, hfile, hhash]

/-- Concrete run of the hashing-failure path. -/
theorem download_audio_hash_error_witness :
    download_audio (fun _ => none)
        ⟨[(strOf "/m/a.mp3", ⟨strOf "a.mp3", 1, strOf "1.5", 0⟩)], [], some ⟨[], []⟩⟩
        (some (strOf "/m/a.mp3")) =
      (some (strOf "/m/a.mp3"),
       ⟨[(strOf "/m/a.mp3", ⟨strOf "a.mp3", 1, strOf "1.5", 0⟩)], [], some ⟨[], []⟩⟩) :=
  download_audio_hash_error_spec _ _ _ ⟨strOf "a.mp3", 1, strOf "1.5", 0⟩ (by decide) rfl

/-- C10, counterexample to "never participates in duplicate detection in
… later runs": a file kept after a hashing failure (present on disk, in
no cache entry) is rehashed by the next run's `build_audio_hash_index`
scan — its digest enters the seeded dedup set, and an identical download
in that run is then detected as a duplicate and deleted.  Concretely: the
state left by `download_audio_hash_error_witness` contains `/m/a.mp3`
with content `0` and an empty cache; a later run whose hashing succeeds
seeds its index with the file's digest and `download_audio` flags an
identical new file as a duplicate. -/
theorem failed_hash_participates_later :
    (strOf "aa") ∈ (build_audio_hash_index (fun _ => some (strOf "aa")) []
        [⟨strOf "a.mp3", 1, strOf "1.5", 0⟩]).1
    ∧ (download_audio (fun _ => some (strOf "aa"))
        ⟨[(strOf "/m/b.mp3", ⟨strOf "b.mp3", 1, strOf "2.5", 0⟩)],
         (build_audio_hash_index (fun _ => some (strOf "aa")) []
            [⟨strOf "a.mp3", 1, strOf "1.5", 0⟩]).1,
         some ⟨[], []⟩⟩
        (some (strOf "/m/b.mp3"))).1 = none := by decide

end SongRetriever

/-! ### Claim C7: freshness in `build_audio_hash_index` -/

theorem alookup_dictInsert_self {β : Type} (k : Str) (v : β) (d : List (Str × β)) :
    alookup k (dictInsert k v d) = some v := by
  induction d with
  | nil => simp [dictInsert, alookup]
  | cons q rest ih =>
    obtain ⟨k', v'⟩ := q
    by_cases h : k = k' <;> simp [dictInsert, alookup, h, ih]

theorem alookup_dictInsert_ne {β : Type} {k k' : Str} (v : β) (d : List (Str × β))
    (hne : k ≠ k') : alookup k (dictInsert k' v d) = alookup k d := by
  induction d with
  | nil => simp [dictInsert, alookup, hne]
  | cons q rest ih =>
    obtain ⟨k'', v''⟩ := q
    by_cases h : k' = k''
    · subst h; simp [dictInsert, alookup, hne]
    · by_cases hk : k = k'' <;> simp [dictInsert, alookup, h, hk, ih]

namespace SongRetriever

/-- Scanning files none of which has relative path `r` leaves the
`new_cache` entry for `r` unchanged. -/
theorem scan_foldl_preserves (hashF : Nat → Option Str) (cache : List (Str × CEntry))
    (r : Str) (fs : List FileInfo) (hnot : ∀ fi ∈ fs, fi.rel ≠ r) :
    ∀ acc, alookup r (fs.foldl (scanStep hashF cache) acc).2 = alookup r acc.2 := by
  induction fs with
  | nil => intro acc; rfl
  | cons g rest ih =>
    intro acc
    have hg : g.rel ≠ r := hnot g (by simp)
    have hrest : ∀ fi ∈ rest, fi.rel ≠ r := fun fi hf => hnot fi (by simp [hf])
    rw [List.foldl_cons, ih hrest]
    cases hf : freshHash cache g with
    | some h => simp [scanStep, hf, alookup_dictInsert_ne _ _ (Ne.symm hg)]
    | none =>
      cases hh : hashF g.content with
      | none => simp [scanStep, hf, hh]
      | some h => simp [scanStep, hf, hh, alookup_dictInsert_ne _ _ (Ne.symm hg)]

/-- If the scan step always writes entry `e` for `fi`, a whole scan over
files with distinct relative paths that include `fi` ends with `e` as the
`new_cache` entry for `fi.rel`. -/
theorem scan_foldl_writes (hashF : Nat → Option Str) (cache : List (Str × CEntry))
    (fs : List FileInfo) (fi : FileInfo) (e : CEntry)
    (hnd : (fs.map FileInfo.rel).Nodup) (hmem : fi ∈ fs)
    (hstep : ∀ acc, (scanStep hashF cache acc fi).2 = dictInsert fi.rel e acc.2) :
    ∀ acc, alookup fi.rel (fs.foldl (scanStep hashF cache) acc).2 = some e := by
  induction fs with
  | nil => cases hmem
  | cons g rest ih =>
    intro acc
    rw [List.map_cons, List.nodup_cons] at hnd
    rcases List.mem_cons.mp hmem with heq | hm
    · subst heq
      have hrest : ∀ f' ∈ rest, f'.rel ≠ fi.rel := by
        intro f' hf' he
        exact hnd.1 (he ▸ List.mem_map_of_mem FileInfo.rel hf')
      rw [List.foldl_cons, scan_foldl_preserves hashF cache fi.rel rest hrest,
        hstep acc, alookup_dictInsert_self]
    · exact ih hnd.2 hm _

/-- C7: in the destination-tree scan seeding the dedup index, a file whose
cache entry matches both its current size and mtime gets the cached hash
as its rebuilt entry — for every possible hashing function, i.e. without
rehashing; a file whose entry is missing or stale gets the recomputed
digest of its bytes as its rebuilt entry. -/
theorem build_index_freshness_spec (hashF : Nat → Option Str)
    (cache : List (Str × CEntry)) (fs : List FileInfo)
    (hnd : (fs.map FileInfo.rel).Nodup) (fi : FileInfo) (hmem : fi ∈ fs) :
    (∀ hc, freshHash cache fi = some hc →
      alookup fi.rel (build_audio_hash_index hashF cache fs).2 =
        some ⟨hc, fi.size, fi.mtime⟩)
    ∧ (∀ h, freshHash cache fi = none → hashF fi.content = some h →
      alookup fi.rel (build_audio_hash_index hashF cache fs).2 =
        some ⟨h, fi.size, fi.mtime⟩) := by
  constructor
  · intro hc hf
    exact scan_foldl_writes hashF cache fs fi _ hnd hmem
      (fun acc => by simp [scanStep, hf]) _
  · intro h hf hh
    exact scan_foldl_writes hashF cache fs fi _ hnd hmem
      (fun acc => by simp [scanStep, hf, hh]) _

/-- Concrete scan: `f1.mp3` has a fresh entry with hash `"cc"` and keeps
it even though rehashing would give `"dd"`; `f2.mp3` has no entry and
gets its recomputed hash `"ee"`. -/
theorem build_index_freshness_witness :
    alookup (strOf "f1.mp3")
      (build_audio_hash_index (fun c => some (if c = 0 then strOf "dd" else strOf "ee"))
        [(strOf "f1.mp3", ⟨strOf "cc", 5, strOf "1.5"⟩)]
        [⟨strOf "f1.mp3", 5, strOf "1.5", 0⟩, ⟨strOf "f2.mp3", 7, strOf "2.5", 1⟩]).2 =
      some ⟨strOf "cc", 5, strOf "1.5"⟩
    ∧ alookup (strOf "f2.mp3")
      (build_audio_hash_index (fun c => some (if c = 0 then strOf "dd" else strOf "ee"))
        [(strOf "f1.mp3", ⟨strOf "cc", 5, strOf "1.5"⟩)]
        [⟨strOf "f1.mp3", 5, strOf "1.5", 0⟩, ⟨strOf "f2.mp3", 7, strOf "2.5", 1⟩]).2 =
      some ⟨strOf "ee", 7, strOf "2.5"⟩ := by
  constructor
  · exact (build_index_freshness_spec _ _ _ (by decide)
      ⟨strOf "f1.mp3", 5, strOf "1.5", 0⟩ (by decide)).1 (strOf "cc") (by decide)
  · exact (build_index_freshness_spec _ _ _ (by decide)
      ⟨strOf "f2.mp3", 7, strOf "2.5", 1⟩ (by decide)).2 (strOf "ee") (by decide) rfl

end SongRetriever

/-! ### Claim C6: malformed store lines -/

namespace SongRetriever

/-- The loop body of `song_retriever.load_hash_cache` accepts a line
exactly when it is non-blank, has exactly four tab fields, and its size
and mtime fields parse. -/
theorem parseLine_isSome (l : Str) : (parseLine l).isSome = srLineOk l := by
  unfold parseLine srLineOk lineFields
  by_cases ht : stripWS l = []
  · simp [ht]
  · simp only [ht, if_false, decide_eq_true_eq, Bool.not_true, Bool.false_and,
      Bool.not_eq_true', decide_eq_false_iff_not, not_false_iff]
    rcases h4 : splitTabMax 3 (stripWS l) with _ | ⟨a, _ | ⟨b, _ | ⟨c, _ | ⟨d, _ | ⟨e, t⟩⟩⟩⟩⟩ <;>
      simp [ht]
    cases hp : parsePyInt c with
    | none => simp
    | some sz => by_cases hm : pyFloatAccepts d = true <;> simp [hm]

/-- Folding skips exactly the rejected lines. -/
theorem loadLines_filter (ls : List Str) :
    loadLines ls = loadLines (ls.filter srLineOk) := by
  unfold loadLines
  suffices h : ∀ d, ls.foldl (fun d l => match parseLine l with
      | none => d
      | some kv => dictInsert kv.1 kv.2 d) d =
      (ls.filter srLineOk).foldl (fun d l => match parseLine l with
      | none => d
      | some kv => dictInsert kv.1 kv.2 d) d from h []
  induction ls with
  | nil => intro d; rfl
  | cons l rest ih =>
    intro d
    by_cases hok : srLineOk l = true
    · have : (parseLine l).isSome = true := (parseLine_isSome l).symm ▸ hok
      rw [List.filter_cons_of_pos hok, List.foldl_cons, List.foldl_cons, ih]
    · have hnone : parseLine l = none := by
        have := parseLine_isSome l
        rw [Bool.eq_false_iff.mpr hok] at this  -- hmm placeholder
        exact Option.not_isSome_iff_eq_none.mp (by simp [this])
      rw [List.filter_cons_of_neg (by simp [hok]), List.foldl_cons, hnone]
      exact ih d

end SongRetriever

namespace RemoveArtists

/-- The loop body of `remove_artists.load_hash_cache` accepts a line
exactly when it is non-blank and has exactly four tab fields. -/
theorem parseLineRA_isSome (l : Str) : (parseLineRA l).isSome = raLineOk l := by
  unfold parseLineRA raLineOk SongRetriever.lineFields
  by_cases ht : stripWS l = []
  · simp [ht]
  · rcases h4 : splitTabMax 3 (stripWS l) with _ | ⟨a, _ | ⟨b, _ | ⟨c, _ | ⟨d, _ | ⟨e, t⟩⟩⟩⟩⟩ <;>
      simp [ht, h4]

/-- Folding skips exactly the rejected lines. -/
theorem loadLinesRA_filter (ls : List Str) :
    loadLinesRA ls = loadLinesRA (ls.filter raLineOk) := by
  unfold loadLinesRA
  suffices h : ∀ d, ls.foldl (fun d l => match parseLineRA l with
      | none => d
      | some kv => dictInsert kv.1 kv.2 d) d =
      (ls.filter raLineOk).foldl (fun d l => match parseLineRA l with
      | none => d
      | some kv => dictInsert kv.1 kv.2 d) d from h []
  induction ls with
  | nil => intro d; rfl
  | cons l rest ih =>
    intro d
    by_cases hok : raLineOk l = true
    · rw [List.filter_cons_of_pos hok, List.foldl_cons, List.foldl_cons, ih]
    · have hnone : parseLineRA l = none := by
        have := parseLineRA_isSome l
        exact Option.not_isSome_iff_eq_none.mp (by simp [this, hok])
      rw [List.filter_cons_of_neg (by simp [hok]), List.foldl_cons, hnone]
      exact ih d

end RemoveArtists

/-- C6, counterexample: the claim says every line whose size field is not
an integer is skipped by `load`, for both cited loaders; but
`remove_artists.load_hash_cache` performs no numeric validation and loads
the line `"h\tp\tabc\txyz"` (size field `"abc"`) into the mapping. -/
theorem load_keeps_nonnumeric_line :
    alookup (strOf "p") (RemoveArtists.load_hash_cache (strOf "h\tp\tabc\txyz\n")) =
      some ⟨strOf "h", strOf "abc", strOf "xyz"⟩ := by decide

/-- C6 (amended): for every input file, `song_retriever.load_hash_cache`
skips (without raising) exactly the lines that are blank, do not split
into exactly four tab fields, or have a non-integer size or non-numeric
mtime field, loading the remaining lines as usual;
`remove_artists.load_hash_cache` skips exactly the blank and
non-four-field lines, keeping size and mtime as unparsed text. -/
theorem load_hash_cache_skips_malformed :
    (∀ content : Str, SongRetriever.load_hash_cache content =
      SongRetriever.loadLines ((splitLines content).filter SongRetriever.srLineOk))
    ∧ (∀ content : Str, RemoveArtists.load_hash_cache content =
      RemoveArtists.loadLinesRA ((splitLines content).filter RemoveArtists.raLineOk)) :=
  ⟨fun content => SongRetriever.loadLines_filter (splitLines content),
   fun content => RemoveArtists.loadLinesRA_filter (splitLines content)⟩

/-! ### Claim C9: idempotence of `normalize` -/

theorem charLe_iff {a b : Char} : a ≤ b ↔ a.toNat ≤ b.toNat := by
  rw [Char.le_def, UInt32.le_def, BitVec.le_def]; rfl

theorem toNat_ofNat_small {n : Nat} (h : n < 55296) : (Char.ofNat n).toNat = n := by
  have hv : n.isValidChar := Or.inl h
  rw [Char.ofNat, dif_pos hv]
  simp [Char.ofNatAux, Char.toNat, UInt32.toNat]

namespace RemoveArtists

/-- The function `pyLower` never produces a character in the upper-case range. -/
theorem pyLower_toNat_not_upper (c : Char) :
    (pyLower c).toNat < 65 ∨ 90 < (pyLower c).toNat := by
  unfold pyLower
  by_cases h : (decide ('A' ≤ c) && decide (c ≤ 'Z')) = true
  · rw [if_pos h]
    have h2 : c.toNat ≤ 90 := by
      have := of_decide_eq_true (Bool.and_elim_right h)
      exact charLe_iff.mp this
    have : (Char.ofNat (c.toNat + 32)).toNat = c.toNat + 32 :=
      toNat_ofNat_small (by omega)
    rw [this]
    have h1 : 65 ≤ c.toNat := charLe_iff.mp (of_decide_eq_true (Bool.and_elim_left h))
    omega
  · rw [if_neg h]
    rcases Bool.and_eq_false_iff.mp (Bool.eq_false_iff.mpr h) with h1 | h2
    · have : ¬ ('A' ≤ c) := of_decide_eq_false h1
      rw [charLe_iff] at this
      have : c.toNat < 65 := by simpa [Nat.lt_iff_add_one_le] using Nat.lt_of_not_le this
      exact Or.inl this
    · have : ¬ (c ≤ 'Z') := of_decide_eq_false h2
      rw [charLe_iff] at this
      exact Or.inr (Nat.lt_of_not_le this)

/-- Characters outside the upper-case range are fixed by `pyLower`. -/
theorem pyLower_fix {c : Char} (h : c.toNat < 65 ∨ 90 < c.toNat) : pyLower c = c := by
  unfold pyLower
  rw [if_neg]
  intro hc
  have h1 : 65 ≤ c.toNat := charLe_iff.mp (of_decide_eq_true (Bool.and_elim_left hc))
  have h2 : c.toNat ≤ 90 := charLe_iff.mp (of_decide_eq_true (Bool.and_elim_right hc))
  omega

theorem pyLower_idem (c : Char) : pyLower (pyLower c) = pyLower c :=
  pyLower_fix (pyLower_toNat_not_upper c)

/-- The per-character step of `normalize` is idempotent. -/
theorem outChar_idem (c : Char) : outChar (outChar c) = outChar c := by
  by_cases h : isAlnumA (pyLower c) = true
  · show outChar (cleanChar (pyLower c)) = cleanChar (pyLower c)
    unfold cleanChar
    rw [if_pos h]
    show cleanChar (pyLower (pyLower c)) = pyLower c
    rw [pyLower_idem]
    unfold cleanChar
    rw [if_pos h]
  · show outChar (cleanChar (pyLower c)) = cleanChar (pyLower c)
    unfold cleanChar
    rw [if_neg h]
    decide

/-- Every word produced by `wordsAux` is non-empty and free of whitespace
characters, provided the running accumulator is. -/
theorem wordsAux_words (m : Str) : ∀ cur, (∀ c ∈ cur, isWS c = false) →
    ∀ w ∈ wordsAux cur m, w ≠ [] ∧ ∀ c ∈ w, isWS c = false := by
  induction m with
  | nil =>
    intro cur hcur w hw
    unfold wordsAux at hw
    by_cases h : cur = []
    · simp [h] at hw
    · rw [if_neg h] at hw
      rcases List.mem_singleton.mp hw with rfl
      refine ⟨by simpa using h, ?_⟩
      intro c hc
      exact hcur c (List.mem_reverse.mp hc)
  | cons d ds ih =>
    intro cur hcur w hw
    unfold wordsAux at hw
    by_cases hd : isWS d = true
    · rw [if_pos hd] at hw
      by_cases h : cur = []
      · rw [if_pos h] at hw
        exact ih [] (by simp) w hw
      · rw [if_neg h] at hw
        rcases List.mem_cons.mp hw with rfl | hw'
        · refine ⟨by simpa using h, ?_⟩
          intro c hc
          exact hcur c (List.mem_reverse.mp hc)
        · exact ih [] (by simp) w hw'
    · rw [if_neg hd] at hw
      refine ih (d :: cur) ?_ w hw
      intro c hc
      rcases List.mem_cons.mp hc with rfl | hc'
      · exact Bool.eq_false_iff.mpr hd
      · exact hcur c hc'

/-- Characters of words come from the accumulator or the input. -/
theorem wordsAux_chars (m : Str) : ∀ cur w c, w ∈ wordsAux cur m → c ∈ w →
    c ∈ cur ∨ c ∈ m := by
  induction m with
  | nil =>
    intro cur w c hw hc
    unfold wordsAux at hw
    by_cases h : cur = []
    · simp [h] at hw
    · rw [if_neg h] at hw
      rcases List.mem_singleton.mp hw with rfl
      exact Or.inl (List.mem_reverse.mp hc)
  | cons d ds ih =>
    intro cur w c hw hc
    unfold wordsAux at hw
    by_cases hd : isWS d = true
    · rw [if_pos hd] at hw
      by_cases h : cur = []
      · rcases ih [] w c (by rwa [if_pos h] at hw) hc with h' | h'
        · cases h'
        · exact Or.inr (List.mem_cons_of_mem d h')
      · rw [if_neg h] at hw
        rcases List.mem_cons.mp hw with rfl | hw'
        · exact Or.inl (List.mem_reverse.mp hc)
        · rcases ih [] w c hw' hc with h' | h'
          · cases h'
          · exact Or.inr (List.mem_cons_of_mem d h')
    · rw [if_neg hd] at hw
      rcases ih (d :: cur) w c hw hc with h' | h'
      · rcases List.mem_cons.mp h' with rfl | h''
        · exact Or.inr (List.mem_cons_self _ _)
        · exact Or.inl h''
      · exact Or.inr (List.mem_cons_of_mem d h')

/-- Characters of a joined word list are spaces or word characters. -/
theorem joinWords_chars : ∀ ws (c : Char), c ∈ joinWords ws →
    c = ' ' ∨ ∃ w ∈ ws, c ∈ w := by
  intro ws
  induction ws with
  | nil => intro c hc; cases hc
  | cons w vs ih =>
    intro c hc
    cases vs with
    | nil =>
      rw [show joinWords [w] = w from rfl] at hc
      exact Or.inr ⟨w, List.mem_singleton_self w, hc⟩
    | cons v vs' =>
      rw [show joinWords (w :: v :: vs') = w ++ ' ' :: joinWords (v :: vs') from rfl] at hc
      rcases List.mem_append.mp hc with h | h
      · exact Or.inr ⟨w, List.mem_cons_self _ _, h⟩
      · rcases List.mem_cons.mp h with rfl | h'
        · exact Or.inl rfl
        · rcases ih c h' with h'' | ⟨u, hu, hcu⟩
          · exact Or.inl h''
          · exact Or.inr ⟨u, List.mem_cons_of_mem w hu, hcu⟩

/-- Consuming a whitespace-free chunk just accumulates it. -/
theorem wordsAux_chunk (w : Str) : ∀ cur rest, (∀ c ∈ w, isWS c = false) →
    wordsAux cur (w ++ rest) = wordsAux (w.reverse ++ cur) rest := by
  induction w with
  | nil => intro cur rest _; rfl
  | cons c w' ih =>
    intro cur rest hw
    rw [List.cons_append]
    have hstep : wordsAux cur (c :: (w' ++ rest)) = wordsAux (c :: cur) (w' ++ rest) := by
      conv_lhs => rw [wordsAux]
      rw [if_neg (by simp [hw c (List.mem_cons_self c w')])]
    rw [hstep, ih (c :: cur) rest (fun d hd => hw d (List.mem_cons_of_mem c hd))]
    simp

/-- Splitting a join of non-empty whitespace-free words recovers them. -/
theorem wordsOf_joinWords : ∀ ws, (∀ w ∈ ws, w ≠ [] ∧ ∀ c ∈ w, isWS c = false) →
    wordsOf (joinWords ws) = ws := by
  intro ws
  induction ws with
  | nil => intro _; rfl
  | cons w vs ih =>
    intro hws
    obtain ⟨hne, hchars⟩ := hws w (List.mem_cons_self _ _)
    cases vs with
    | nil =>
      show wordsAux [] (joinWords [w]) = [w]
      rw [show joinWords [w] = w from rfl, ← List.append_nil w,
        wordsAux_chunk w [] [] hchars]
      unfold wordsAux
      rw [if_neg (by simpa using hne)]
      simp
    | cons v vs' =>
      show wordsAux [] (joinWords (w :: v :: vs')) = w :: v :: vs'
      rw [show joinWords (w :: v :: vs') = w ++ ' ' :: joinWords (v :: vs') from rfl,
        wordsAux_chunk w [] (' ' :: joinWords (v :: vs')) hchars]
      unfold wordsAux
      rw [if_pos (by decide)]
      rw [List.append_nil]
      rw [if_neg (by simpa using hne)]
      rw [List.reverse_reverse]
      exact congrArg (w :: ·) (ih (fun u hu => hws u (List.mem_cons_of_mem w hu)))

/-- Mapping a function that fixes every member is the identity. -/
theorem map_id_of_fix (f : Char → Char) : ∀ (j : Str), (∀ c ∈ j, f c = c) → j.map f = j := by
  intro j
  induction j with
  | nil => intro _; rfl
  | cons c cs ih =>
    intro h
    rw [List.map_cons, h c (List.mem_cons_self c cs),
      ih (fun d hd => h d (List.mem_cons_of_mem c hd))]

/-- Idempotence of `normalize` on model strings. -/
theorem normalizeCore_idem (l : Str) : normalizeCore (normalizeCore l) = normalizeCore l := by
  have hws : ∀ w ∈ wordsOf (l.map outChar), w ≠ [] ∧ ∀ c ∈ w, isWS c = false :=
    wordsAux_words (l.map outChar) [] (by simp)
  have hfix : ∀ c ∈ joinWords (wordsOf (l.map outChar)), outChar c = c := by
    intro c hc
    rcases joinWords_chars _ c hc with rfl | ⟨w, hw, hcw⟩
    · decide
    · rcases wordsAux_chars (l.map outChar) [] w c hw hcw with h | h
      · cases h
      · obtain ⟨c0, _, rfl⟩ := List.mem_map.mp h
        exact outChar_idem c0
  show joinWords (wordsOf ((joinWords (wordsOf (l.map outChar))).map outChar)) =
    joinWords (wordsOf (l.map outChar))
  rw [map_id_of_fix outChar _ hfix, wordsOf_joinWords _ hws]

end RemoveArtists

/-- C9: `normalize` is idempotent — for every string `x`,
`normalize (normalize x) = normalize x`. -/
theorem normalize_idempotent (s : String) :
    RemoveArtists.normalize (RemoveArtists.normalize s) = RemoveArtists.normalize s :=
  congrArg String.mk (RemoveArtists.normalizeCore_idem s.data)

/-! ### Claim C5: hash-cache round trip — infrastructure -/

theorem isWS_cases {c : Char} (h : isWS c = true) :
    c = ' ' ∨ c = '\t' ∨ c = '\n' ∨ c = '\r' ∨ c = '\x0b' ∨ c = '\x0c' := by
  simp only [isWS, Bool.or_eq_true, beq_iff_eq] at h
  tauto

theorem isWS_toNat {c : Char} (h : isWS c = true) :
    c.toNat = 32 ∨ c.toNat = 9 ∨ c.toNat = 10 ∨ c.toNat = 13 ∨
    c.toNat = 11 ∨ c.toNat = 12 := by
  rcases isWS_cases h with rfl | rfl | rfl | rfl | rfl | rfl <;> decide

theorem nonWS_of_toNat {c : Char}
    (hn : ¬(c.toNat = 32 ∨ c.toNat = 9 ∨ c.toNat = 10 ∨ c.toNat = 13 ∨
      c.toNat = 11 ∨ c.toNat = 12)) : isWS c = false := by
  cases hws : isWS c
  · rfl
  · exact absurd (isWS_toNat hws) hn

theorem char_ne_of_toNat {c d : Char} (h : c.toNat ≠ d.toNat) : ¬(c = d) :=
  fun he => h (he ▸ rfl)

theorem isHexChar_toNat {c : Char} (h : isHexChar c = true) :
    (48 ≤ c.toNat ∧ c.toNat ≤ 57) ∨ (97 ≤ c.toNat ∧ c.toNat ≤ 102) := by
  simp only [isHexChar, Bool.or_eq_true, Bool.and_eq_true, decide_eq_true_eq] at h
  rcases h with ⟨h1, h2⟩ | ⟨h1, h2⟩
  · exact Or.inl ⟨charLe_iff.mp h1, charLe_iff.mp h2⟩
  · exact Or.inr ⟨charLe_iff.mp h1, charLe_iff.mp h2⟩

theorem hexChar_not_ws {c : Char} (h : isHexChar c = true) : isWS c = false :=
  nonWS_of_toNat (by rcases isHexChar_toNat h with ⟨h1, h2⟩ | ⟨h1, h2⟩ <;> omega)

theorem hexChar_ne_tab {c : Char} (h : isHexChar c = true) : ¬(c = '\t') :=
  char_ne_of_toNat (by
    have h9 : ('\t').toNat = 9 := rfl
    rcases isHexChar_toNat h with ⟨h1, h2⟩ | ⟨h1, h2⟩ <;> omega)

theorem hexChar_ne_nl {c : Char} (h : isHexChar c = true) : ¬(c = '\n') :=
  char_ne_of_toNat (by
    have h10 : ('\n').toNat = 10 := rfl
    rcases isHexChar_toNat h with ⟨h1, h2⟩ | ⟨h1, h2⟩ <;> omega)

theorem nonWS_ne_tab {c : Char} (h : isWS c = false) : ¬(c = '\t') := by
  rintro rfl; cases h

theorem nonWS_ne_nl {c : Char} (h : isWS c = false) : ¬(c = '\n') := by
  rintro rfl; cases h

theorem dropWhile_eq_self_of_head {l : Str}
    (h : ∀ c, l.head? = some c → isWS c = false) : l.dropWhile isWS = l := by
  cases l with
  | nil => rfl
  | cons c cs => rw [List.dropWhile_cons, if_neg (by simp [h c rfl])]

theorem stripWS_eq_self_of {l : Str} (h1 : ∀ c, l.head? = some c → isWS c = false)
    (h2 : ∀ c, l.reverse.head? = some c → isWS c = false) : stripWS l = l := by
  unfold stripWS
  rw [dropWhile_eq_self_of_head h1, dropWhile_eq_self_of_head h2, List.reverse_reverse]

theorem stripWS_eq_self_of_all {l : Str} (h : ∀ c ∈ l, isWS c = false) :
    stripWS l = l := by
  refine stripWS_eq_self_of (fun c hc => ?_) (fun c hc => ?_)
  · cases l with
    | nil => cases hc
    | cons d ds =>
      simp only [List.head?_cons, Option.some.injEq] at hc
      subst hc
      exact h d (List.mem_cons_self d ds)
  · cases hrev : l.reverse with
    | nil => rw [hrev] at hc; cases hc
    | cons d ds =>
      rw [hrev] at hc
      simp only [List.head?_cons, Option.some.injEq] at hc
      subst hc
      refine h d (List.mem_reverse.mp ?_)
      rw [hrev]
      exact List.mem_cons_self _ _

theorem revhead_nonWS {xs m : Str} (hm : m ≠ []) (hall : ∀ c ∈ m, isWS c = false) :
    ∀ c, ((xs ++ m).reverse).head? = some c → isWS c = false := by
  intro c hc
  rw [List.reverse_append] at hc
  cases hmr : m.reverse with
  | nil => exact absurd (by simpa using congrArg List.reverse hmr) hm
  | cons c0 cs =>
    rw [hmr] at hc
    simp only [List.cons_append, List.head?_cons, Option.some.injEq] at hc
    subst hc
    refine hall c0 (List.mem_reverse.mp ?_)
    rw [hmr]; exact List.mem_cons_self _ _

theorem splitLinesLF_chunk (l : Str) : ∀ rest, (∀ c ∈ l, ¬(c = '\n')) →
    splitLinesLF (l ++ '\n' :: rest) = l :: splitLinesLF rest := by
  induction l with
  | nil =>
    intro rest _
    show splitLinesLF ('\n' :: rest) = [] :: splitLinesLF rest
    conv_lhs => rw [splitLinesLF]
    rw [if_pos rfl]
  | cons c cs ih =>
    intro rest h
    rw [List.cons_append]
    conv_lhs => rw [splitLinesLF]
    rw [if_neg (h c (List.mem_cons_self c cs)),
      ih rest (fun d hd => h d (List.mem_cons_of_mem c hd))]
    rfl

/-- On carriage-return-free text the universal-newline translation is the
identity. -/
theorem normNewlines_id : ∀ (l : Str), (∀ c ∈ l, ¬(c = '\r')) → normNewlines l = l := by
  intro l
  induction l with
  | nil => intro _; rfl
  | cons c cs ih =>
    intro h
    have hcr := h c (List.mem_cons_self c cs)
    have htail := ih (fun d hd => h d (List.mem_cons_of_mem c hd))
    rw [normNewlines.eq_def]
    split
    all_goals first
      | exact absurd rfl hcr
      | simp_all

theorem splitTabMax_zero (l : Str) : splitTabMax 0 l = [l] := by
  cases l <;> rfl

theorem splitTabMax_chunk (a : Str) : ∀ (n : Nat) (b : Str), (∀ c ∈ a, ¬(c = '\t')) →
    splitTabMax (n + 1) (a ++ '\t' :: b) = a :: splitTabMax n b := by
  induction a with
  | nil =>
    intro n b _
    show splitTabMax (n + 1) ('\t' :: b) = [] :: splitTabMax n b
    conv_lhs => rw [splitTabMax]
    rw [if_pos rfl]
  | cons c cs ih =>
    intro n b h
    rw [List.cons_append]
    conv_lhs => rw [splitTabMax]
    rw [if_neg (h c (List.mem_cons_self c cs)),
      ih n b (fun d hd => h d (List.mem_cons_of_mem c hd))]
    rfl

theorem uintLe_iff {a b : UInt32} : a ≤ b ↔ a.toNat ≤ b.toNat := by
  rw [UInt32.le_def, BitVec.le_def]; rfl

theorem isDigit_iff {c : Char} : c.isDigit = true ↔ 48 ≤ c.toNat ∧ c.toNat ≤ 57 := by
  have h48 : ((48 : UInt32)).toNat = 48 := rfl
  have h57 : ((57 : UInt32)).toNat = 57 := rfl
  simp only [Char.isDigit, Bool.and_eq_true, decide_eq_true_eq, ge_iff_le, uintLe_iff,
    h48, h57]
  exact Iff.rfl

theorem digitChar_toNat {d : Nat} (h : d < 10) : (digitChar d).toNat = 48 + d :=
  toNat_ofNat_small (by omega)

theorem natDigitsAux_bounds : ∀ (fuel n : Nat), ∀ c ∈ natDigitsAux fuel n,
    48 ≤ c.toNat ∧ c.toNat ≤ 57 := by
  intro fuel
  induction fuel with
  | zero => intro n c hc; cases hc
  | succ f ih =>
    intro n c hc
    unfold natDigitsAux at hc
    by_cases hn : n < 10
    · rw [if_pos hn] at hc
      rcases List.mem_singleton.mp hc with rfl
      rw [digitChar_toNat hn]; omega
    · rw [if_neg hn] at hc
      rcases List.mem_append.mp hc with h' | h'
      · exact ih (n / 10) c h'
      · rcases List.mem_singleton.mp h' with rfl
        rw [digitChar_toNat (Nat.mod_lt n (by omega))]
        have := Nat.mod_lt n (show 0 < 10 by omega)
        omega

theorem natRepr_ne_nil (n : Nat) : natRepr n ≠ [] := by
  unfold natRepr natDigitsAux
  by_cases hn : n < 10 <;> simp [hn]

theorem noDoubleUS_of_no_us : ∀ (l : Str), (∀ c ∈ l, ¬(c = '_')) → noDoubleUS l = true := by
  intro l
  induction l with
  | nil => intro _; rfl
  | cons c cs ih =>
    intro h
    cases cs with
    | nil => rfl
    | cons c2 cs2 =>
      show (!(decide (c = '_') && decide (c2 = '_')) && noDoubleUS (c2 :: cs2)) = true
      rw [ih (fun d hd => h d (List.mem_cons_of_mem c hd))]
      simp [h c (List.mem_cons_self c (c2 :: cs2))]

theorem pyDigitsOk_digits (l : Str) (hne : l ≠ [])
    (hall : ∀ c ∈ l, 48 ≤ c.toNat ∧ c.toNat ≤ 57) : pyDigitsOk l = true := by
  cases l with
  | nil => exact absurd rfl hne
  | cons c cs =>
    have hlast := hall _ (List.getLast_mem (l := c :: cs) (by simp))
    have hhead := hall c (List.mem_cons_self c cs)
    have hdall : (c :: cs).all (fun d => d.isDigit || decide (d = '_')) = true := by
      rw [List.all_eq_true]
      intro d hd
      simp [isDigit_iff.mpr (hall d hd)]
    unfold pyDigitsOk
    simp only []
    rw [List.getLast?_eq_getLast (c :: cs) (by simp)]
    simp only []
    rw [isDigit_iff.mpr hhead, isDigit_iff.mpr hlast, hdall,
      noDoubleUS_of_no_us (c :: cs) (fun d hd => char_ne_of_toNat (by
        have h95 : ('_').toNat = 95 := rfl
        have := hall d hd
        omega))]
    rfl

theorem pyDigitsNum_natDigitsAux : ∀ (fuel n : Nat), n < fuel →
    pyDigitsNum (natDigitsAux fuel n) = n := by
  intro fuel
  induction fuel with
  | zero => intro n hn; omega
  | succ f ih =>
    intro n hn
    unfold natDigitsAux
    by_cases h10 : n < 10
    · rw [if_pos h10]
      have hne : ¬(digitChar n = '_') := char_ne_of_toNat (by
        rw [digitChar_toNat h10]
        have h95 : ('_').toNat = 95 := rfl
        omega)
      show pyDigitsNum [digitChar n] = n
      unfold pyDigitsNum
      simp [List.foldl_cons, hne, digitChar_toNat h10]
    · rw [if_neg h10]
      have hdiv : n / 10 < f := by
        have := Nat.div_lt_self (show 0 < n by omega) (show 1 < 10 by omega)
        omega
      have hne : ¬(digitChar (n % 10) = '_') := char_ne_of_toNat (by
        rw [digitChar_toNat (Nat.mod_lt n (by omega))]
        have h95 : ('_').toNat = 95 := rfl
        have := Nat.mod_lt n (show 0 < 10 by omega)
        omega)
      show pyDigitsNum (natDigitsAux f (n / 10) ++ [digitChar (n % 10)]) = n
      unfold pyDigitsNum
      rw [List.foldl_append]
      have hrec := ih (n / 10) hdiv
      unfold pyDigitsNum at hrec
      rw [hrec, List.foldl_cons, List.foldl_nil, if_neg hne,
        digitChar_toNat (Nat.mod_lt n (by omega))]
      omega

theorem pyDigits_natRepr (n : Nat) : pyDigits (natRepr n) = some n := by
  unfold pyDigits
  rw [if_pos (pyDigitsOk_digits _ (natRepr_ne_nil n)
    (natDigitsAux_bounds (n + 1) n))]
  exact congrArg some (pyDigitsNum_natDigitsAux (n + 1) n (by omega))

theorem intRepr_chars {z : Int} : ∀ c ∈ intRepr z,
    (48 ≤ c.toNat ∧ c.toNat ≤ 57) ∨ c.toNat = 45 := by
  intro c hc
  unfold intRepr at hc
  by_cases hz : z < 0
  · rw [if_pos hz] at hc
    rcases List.mem_cons.mp hc with rfl | hc'
    · exact Or.inr rfl
    · exact Or.inl (natDigitsAux_bounds _ _ c hc')
  · rw [if_neg hz] at hc
    exact Or.inl (natDigitsAux_bounds _ _ c hc)

theorem stripWS_intRepr (z : Int) : stripWS (intRepr z) = intRepr z :=
  stripWS_eq_self_of_all (fun c hc => nonWS_of_toNat (by
    rcases intRepr_chars c hc with ⟨h1, h2⟩ | h1 <;> omega))

theorem parsePyInt_intRepr (z : Int) : parsePyInt (intRepr z) = some z := by
  unfold parsePyInt
  rw [stripWS_intRepr]
  by_cases hz : z < 0
  · have hrepr : intRepr z = '-' :: natRepr z.natAbs := by unfold intRepr; rw [if_pos hz]
    rw [hrepr]
    simp only []
    rw [pyDigits_natRepr]
    show some (-(Int.ofNat z.natAbs)) = some z
    exact congrArg some (by simp only [Int.ofNat_eq_natCast]; omega)
  · have hrepr : intRepr z = natRepr z.toNat := by unfold intRepr; rw [if_neg hz]
    rw [hrepr]
    cases hn : natRepr z.toNat with
    | nil => exact absurd hn (natRepr_ne_nil _)
    | cons c cs =>
      have hcb := natDigitsAux_bounds _ _ c (by rw [show natDigitsAux (z.toNat + 1) z.toNat = natRepr z.toNat from rfl, hn]; exact List.mem_cons_self c cs)
      simp only []
      rw [if_neg (char_ne_of_toNat (by
            have h43 : ('+').toNat = 43 := rfl
            omega)),
        if_neg (char_ne_of_toNat (by
            have h45 : ('-').toNat = 45 := rfl
            omega)),
        ← hn, pyDigits_natRepr]
      show some (Int.ofNat z.toNat) = some z
      exact congrArg some (by simp only [Int.ofNat_eq_natCast]; omega)

namespace SongRetriever

theorem pyFloatAccepts_nil : pyFloatAccepts [] = false := by decide

theorem entryWF_parts {k : Str} {e : CEntry} (h : entryWF k e = true) :
    (e.hash ≠ [] ∧ ∀ c ∈ e.hash, isHexChar c = true)
    ∧ (∀ c ∈ k, ¬(c = '\t') ∧ ¬(c = '\n') ∧ ¬(c = '\r'))
    ∧ (pyFloatAccepts e.mtime = true ∧ e.mtime ≠ [] ∧ ∀ c ∈ e.mtime, isWS c = false) := by
  simp only [entryWF, hashWF, keyWF, mtimeWF, Bool.and_eq_true, List.all_eq_true,
    Bool.not_eq_true', decide_eq_false_iff_not] at h
  obtain ⟨⟨⟨hne, hhex⟩, hkey⟩, hacc, hmw⟩ := h
  refine ⟨⟨hne, hhex⟩, ?_, hacc, ?_, ?_⟩
  · intro c hc
    have h2 := hkey c hc
    refine ⟨?_, ?_, ?_⟩ <;> simp_all
  · intro hnil
    rw [hnil, pyFloatAccepts_nil] at hacc
    cases hacc
  · intro c hc
    simpa using hmw c hc

theorem entryLine_eq (k : Str) (e : CEntry) :
    entryLine k e = e.hash ++ '\t' :: (k ++ '\t' :: (intRepr e.size ++ '\t' :: e.mtime)) :=
  rfl

theorem entryLine_mem {k : Str} {e : CEntry} {c : Char} (hc : c ∈ entryLine k e) :
    c ∈ e.hash ∨ c = '\t' ∨ c ∈ k ∨ c ∈ intRepr e.size ∨ c ∈ e.mtime := by
  rw [entryLine_eq] at hc
  simp only [List.mem_append, List.mem_cons] at hc
  tauto

theorem entryLine_no_nl {k : Str} {e : CEntry} (h : entryWF k e = true) :
    ∀ c ∈ entryLine k e, ¬(c = '\n') := by
  obtain ⟨⟨_, hhex⟩, hkey, _, _, hmw⟩ := entryWF_parts h
  intro c hc
  rcases entryLine_mem hc with h' | h' | h' | h' | h'
  · exact hexChar_ne_nl (hhex c h')
  · subst h'; decide
  · exact (hkey c h').2.1
  · exact char_ne_of_toNat (by
      have h10 : ('\n').toNat = 10 := rfl
      rcases intRepr_chars c h' with ⟨h1, h2⟩ | h1 <;> omega)
  · exact nonWS_ne_nl (hmw c h')

theorem nonWS_ne_cr {c : Char} (h : isWS c = false) : ¬(c = '\r') := by
  rintro rfl; cases h

theorem entryLine_no_cr {k : Str} {e : CEntry} (h : entryWF k e = true) :
    ∀ c ∈ entryLine k e, ¬(c = '\r') := by
  obtain ⟨⟨_, hhex⟩, hkey, _, _, hmw⟩ := entryWF_parts h
  intro c hc
  rcases entryLine_mem hc with h' | h' | h' | h' | h'
  · exact nonWS_ne_cr (hexChar_not_ws (hhex c h'))
  · subst h'; decide
  · exact (hkey c h').2.2
  · exact char_ne_of_toNat (by
      have h13 : ('\r').toNat = 13 := rfl
      rcases intRepr_chars c h' with ⟨h1, h2⟩ | h1 <;> omega)
  · exact nonWS_ne_cr (hmw c h')

theorem strip_entryLine {k : Str} {e : CEntry} (h : entryWF k e = true) :
    stripWS (entryLine k e) = entryLine k e := by
  obtain ⟨⟨hne, hhex⟩, _, _, hmne, hmw⟩ := entryWF_parts h
  refine stripWS_eq_self_of ?_ ?_
  · intro c hc
    cases hh : e.hash with
    | nil => exact absurd hh hne
    | cons h0 hs =>
      have hl : entryLine k e = h0 :: (hs ++ '\t' :: (k ++ '\t' :: (intRepr e.size ++ '\t' :: e.mtime))) := by
        rw [entryLine_eq, hh]; rfl
      rw [hl] at hc
      simp only [List.head?_cons, Option.some.injEq] at hc
      subst hc
      exact hexChar_not_ws (hhex h0 (by rw [hh]; exact List.mem_cons_self _ _))
  · have hxs : entryLine k e =
        (e.hash ++ '\t' :: (k ++ '\t' :: (intRepr e.size ++ ['\t']))) ++ e.mtime := by
      rw [entryLine_eq]
      simp [List.append_assoc]
    rw [hxs]
    exact revhead_nonWS hmne hmw

theorem splitTab_entryLine {k : Str} {e : CEntry} (h : entryWF k e = true) :
    splitTabMax 3 (entryLine k e) = [e.hash, k, intRepr e.size, e.mtime] := by
  obtain ⟨⟨_, hhex⟩, hkey, _, _, _⟩ := entryWF_parts h
  rw [entryLine_eq, show (3 : Nat) = 2 + 1 from rfl,
    splitTabMax_chunk e.hash 2 _ (fun c hc => hexChar_ne_tab (hhex c hc)),
    show (2 : Nat) = 1 + 1 from rfl,
    splitTabMax_chunk k 1 _ (fun c hc => (hkey c hc).1),
    show (1 : Nat) = 0 + 1 from rfl,
    splitTabMax_chunk (intRepr e.size) 0 _ (fun c hc => char_ne_of_toNat (by
      have h9 : ('\t').toNat = 9 := rfl
      rcases intRepr_chars c hc with ⟨h1, h2⟩ | h1 <;> omega)),
    splitTabMax_zero]

theorem entryLine_ne_nil {k : Str} {e : CEntry} (h : entryWF k e = true) :
    ¬(entryLine k e = []) := by
  obtain ⟨⟨hne, _⟩, _, _, _, _⟩ := entryWF_parts h
  rw [entryLine_eq]
  cases hh : e.hash with
  | nil => exact absurd hh hne
  | cons h0 hs => simp

/-- A well-formed record line parses back to exactly its entry. -/
theorem parseLine_entryLine {k : Str} {e : CEntry} (h : entryWF k e = true) :
    parseLine (entryLine k e) = some (k, e) := by
  obtain ⟨_, _, hacc, _, hmw⟩ := entryWF_parts h
  unfold parseLine
  rw [strip_entryLine h, if_neg (entryLine_ne_nil h), splitTab_entryLine h]
  simp only []
  rw [parsePyInt_intRepr]
  simp only []
  rw [if_pos hacc, stripWS_eq_self_of_all hmw]

end SongRetriever

namespace SongRetriever

theorem strLtB_asymm : ∀ {x y : Str}, strLtB x y = true → strLtB y x = false := by
  intro x
  induction x with
  | nil =>
    intro y h
    cases y with
    | nil => cases h
    | cons b bs => rfl
  | cons a as ih =>
    intro y h
    cases y with
    | nil => cases h
    | cons b bs =>
      by_cases hab : a < b
      · show strLtB (b :: bs) (a :: as) = false
        rw [strLtB, if_neg (lt_asymm hab), if_pos hab]
      · by_cases hba : b < a
        · rw [strLtB, if_neg hab, if_pos hba] at h
          cases h
        · rw [strLtB, if_neg hab, if_neg hba] at h
          show strLtB (b :: bs) (a :: as) = false
          rw [strLtB, if_neg hba, if_neg hab]
          exact ih h

/-- The order produced by `insertByKey`-sorting. -/
def keyChain (l : List (Str × CEntry)) : Prop :=
  List.Chain' (fun a b => strLtB b.1 a.1 = false) l

theorem insertByKey_chain (p : Str × CEntry) :
    ∀ {l : List (Str × CEntry)}, keyChain l → keyChain (insertByKey p l) := by
  intro l
  induction l with
  | nil => intro _; exact List.chain'_singleton p
  | cons q rest ih =>
    intro h
    unfold insertByKey
    by_cases hq : strLtB q.1 p.1 = true
    · rw [if_pos hq]
      cases rest with
      | nil =>
        show List.Chain' _ [q, p]
        exact List.chain'_pair.mpr (strLtB_asymm hq)
      | cons r rs =>
        have hlink := (List.chain'_cons.mp h).1
        have htail := (List.chain'_cons.mp h).2
        have hins := ih htail
        unfold insertByKey
        by_cases hr : strLtB r.1 p.1 = true
        · rw [if_pos hr]
          unfold insertByKey at hins
          rw [if_pos hr] at hins
          exact List.chain'_cons.mpr ⟨hlink, hins⟩
        · rw [if_neg hr]
          refine List.chain'_cons.mpr ⟨strLtB_asymm hq, ?_⟩
          exact List.chain'_cons.mpr ⟨Bool.eq_false_iff.mpr hr, htail⟩
    · rw [if_neg hq]
      exact List.chain'_cons.mpr ⟨Bool.eq_false_iff.mpr hq, h⟩

theorem sortByKey_chain (l : List (Str × CEntry)) : keyChain (sortByKey l) := by
  induction l with
  | nil => exact List.chain'_nil
  | cons x xs ih => exact insertByKey_chain x ih

theorem sortByKey_of_chain : ∀ {l : List (Str × CEntry)}, keyChain l → sortByKey l = l := by
  intro l
  induction l with
  | nil => intro _; rfl
  | cons x xs ih =>
    intro h
    show insertByKey x (sortByKey xs) = x :: xs
    cases xs with
    | nil => rfl
    | cons y ys =>
      rw [ih (List.chain'_cons.mp h).2]
      show insertByKey x (y :: ys) = x :: y :: ys
      unfold insertByKey
      rw [if_neg (by simp [(List.chain'_cons.mp h).1])]

theorem insertByKey_perm (p : Str × CEntry) :
    ∀ (l : List (Str × CEntry)), (insertByKey p l).Perm (p :: l) := by
  intro l
  induction l with
  | nil => exact List.Perm.refl _
  | cons q rest ih =>
    unfold insertByKey
    by_cases hq : strLtB q.1 p.1 = true
    · rw [if_pos hq]
      exact (ih.cons q).trans (List.Perm.swap p q rest)
    · rw [if_neg hq]

theorem sortByKey_perm (l : List (Str × CEntry)) : (sortByKey l).Perm l := by
  induction l with
  | nil => exact List.Perm.refl _
  | cons x xs ih =>
    exact (insertByKey_perm x (sortByKey xs)).trans (ih.cons x)

theorem sortByKey_idem (l : List (Str × CEntry)) :
    sortByKey (sortByKey l) = sortByKey l :=
  sortByKey_of_chain (sortByKey_chain l)

theorem splitLinesLF_saveList :
    ∀ (es : List (Str × CEntry)), (∀ p ∈ es, entryWF p.1 p.2 = true) →
    splitLinesLF (es.foldr (fun p acc => entryLine p.1 p.2 ++ '\n' :: acc) []) =
      es.map (fun p => entryLine p.1 p.2) ++ [[]] := by
  intro es
  induction es with
  | nil => intro _; rfl
  | cons p rest ih =>
    intro h
    rw [List.foldr_cons,
      splitLinesLF_chunk _ _ (entryLine_no_nl (h p (List.mem_cons_self p rest))),
      ih (fun q hq => h q (List.mem_cons_of_mem p hq)), List.map_cons, List.cons_append]

/-- The saved store contains no carriage returns: record lines are built
from well-formed entries and terminated by `'\n'`. -/
theorem saveList_no_cr :
    ∀ (es : List (Str × CEntry)), (∀ p ∈ es, entryWF p.1 p.2 = true) →
    ∀ c ∈ es.foldr (fun p acc => entryLine p.1 p.2 ++ '\n' :: acc) [], ¬(c = '\r') := by
  intro es
  induction es with
  | nil => intro _ c hc; cases hc
  | cons p rest ih =>
    intro h c hc
    rw [List.foldr_cons] at hc
    rcases List.mem_append.mp hc with h' | h'
    · exact entryLine_no_cr (h p (List.mem_cons_self p rest)) c h'
    · rcases List.mem_cons.mp h' with rfl | h''
      · decide
      · exact ih (fun q hq => h q (List.mem_cons_of_mem p hq)) c h''

theorem splitLines_saveList :
    ∀ (es : List (Str × CEntry)), (∀ p ∈ es, entryWF p.1 p.2 = true) →
    splitLines (es.foldr (fun p acc => entryLine p.1 p.2 ++ '\n' :: acc) []) =
      es.map (fun p => entryLine p.1 p.2) ++ [[]] := by
  intro es h
  show splitLinesLF (normNewlines _) = _
  rw [normNewlines_id _ (saveList_no_cr es h)]
  exact splitLinesLF_saveList es h

theorem dictInsert_fresh {β : Type} {k : Str} {v : β} :
    ∀ {d : List (Str × β)}, (∀ p ∈ d, ¬(p.1 = k)) → dictInsert k v d = d ++ [(k, v)] := by
  intro d
  induction d with
  | nil => intro _; rfl
  | cons q rest ih =>
    intro h
    obtain ⟨k', v'⟩ := q
    show dictInsert k v ((k', v') :: rest) = (k', v') :: rest ++ [(k, v)]
    unfold dictInsert
    rw [if_neg (fun he => h (k', v') (List.mem_cons_self _ _) he.symm),
      ih (fun p hp => h p (List.mem_cons_of_mem _ hp))]
    rfl

theorem loadLines_saved :
    ∀ (es acc : List (Str × CEntry)),
    (∀ p ∈ es, parseLine (entryLine p.1 p.2) = some p) →
    ((acc.map Prod.fst ++ es.map Prod.fst).Nodup) →
    (es.map (fun p => entryLine p.1 p.2)).foldl (fun d l =>
      match parseLine l with
      | none => d
      | some kv => dictInsert kv.1 kv.2 d) acc = acc ++ es := by
  intro es
  induction es with
  | nil => intro acc _ _; simp
  | cons p rest ih =>
    intro acc hparse hnd
    rw [List.map_cons, List.foldl_cons, hparse p (List.mem_cons_self p rest)]
    simp only []
    have hfresh : ∀ q ∈ acc, ¬(q.1 = p.1) := by
      intro q hq he
      rw [List.map_cons, List.nodup_append] at hnd
      exact hnd.2.2 (he ▸ List.mem_map_of_mem Prod.fst hq) (List.mem_cons_self _ _)
    rw [dictInsert_fresh hfresh]
    rw [ih (acc ++ [p]) (fun q hq => hparse q (List.mem_cons_of_mem p hq)) (by
      rw [List.map_append, List.append_assoc]
      simpa using hnd)]
    simp

theorem load_of_save (X : List (Str × CEntry)) (h : cacheWF X) :
    load_hash_cache (save_hash_cache X) = sortByKey X := by
  have hwf' : ∀ p ∈ sortByKey X, entryWF p.1 p.2 = true :=
    fun p hp => h.2 p ((sortByKey_perm X).mem_iff.mp hp)
  show loadLines (splitLines ((sortByKey X).foldr
    (fun p acc => entryLine p.1 p.2 ++ '\n' :: acc) [])) = sortByKey X
  rw [splitLines_saveList (sortByKey X) hwf']
  unfold loadLines
  rw [List.foldl_append,
    loadLines_saved (sortByKey X) [] (fun p hp => parseLine_entryLine (hwf' p hp)) (by
      simp only [List.map_nil, List.nil_append]
      exact (((sortByKey_perm X).map Prod.fst).nodup_iff).mpr h.1)]
  simp only [List.nil_append, List.foldl_cons, List.foldl_nil]
  rfl

end SongRetriever

/-- C5, counterexample: the claim's well-formedness (valid hash, tab-free
relative path, integer size, float mtime) is satisfied by the
single-entry mappings with keys `"a\nb"` and `"a\rb"`, but both round
trips fail: the newline inside the first key splits the saved record
across two store lines, and the carriage return in the second is
translated to a line break by the text-mode read, so in each case both
halves are malformed, loading yields the empty mapping and re-saving
yields different file content. -/
theorem hash_cache_roundtrip_claim_cex :
    SongRetriever.hashWF (strOf "ff") = true
    ∧ (strOf "a\nb").all (fun c => !decide (c = '\t')) = true
    ∧ (strOf "a\rb").all (fun c => !decide (c = '\t')) = true
    ∧ SongRetriever.mtimeWF (strOf "1.0") = true
    ∧ SongRetriever.load_hash_cache (SongRetriever.save_hash_cache
        [(strOf "a\nb", ⟨strOf "ff", 1, strOf "1.0"⟩)]) = []
    ∧ ¬(SongRetriever.save_hash_cache (SongRetriever.load_hash_cache
        (SongRetriever.save_hash_cache [(strOf "a\nb", ⟨strOf "ff", 1, strOf "1.0"⟩)])) =
      SongRetriever.save_hash_cache [(strOf "a\nb", ⟨strOf "ff", 1, strOf "1.0"⟩)])
    ∧ SongRetriever.load_hash_cache (SongRetriever.save_hash_cache
        [(strOf "a\rb", ⟨strOf "ff", 1, strOf "1.0"⟩)]) = []
    ∧ ¬(SongRetriever.save_hash_cache (SongRetriever.load_hash_cache
        (SongRetriever.save_hash_cache [(strOf "a\rb", ⟨strOf "ff", 1, strOf "1.0"⟩)])) =
      SongRetriever.save_hash_cache [(strOf "a\rb", ⟨strOf "ff", 1, strOf "1.0"⟩)]) := by
  decide

/-- C5 (amended): for every well-formed cache mapping — valid hex hash,
relative path free of tabs, newlines *and carriage returns* (both of the
latter break the record when the store is read back in text mode),
integer size, float mtime, keys distinct — loading a saved store yields
the same mapping with key order normalized to ascending key order, and
`save (load (save X))` produces exactly the file content of `save X`. -/
theorem hash_cache_roundtrip (X : List (Str × SongRetriever.CEntry))
    (h : SongRetriever.cacheWF X) :
    SongRetriever.load_hash_cache (SongRetriever.save_hash_cache X) =
      SongRetriever.sortByKey X
    ∧ (SongRetriever.sortByKey X).Perm X
    ∧ SongRetriever.save_hash_cache (SongRetriever.load_hash_cache
        (SongRetriever.save_hash_cache X)) = SongRetriever.save_hash_cache X := by
  refine ⟨SongRetriever.load_of_save X h, SongRetriever.sortByKey_perm X, ?_⟩
  rw [SongRetriever.load_of_save X h]
  show (SongRetriever.sortByKey (SongRetriever.sortByKey X)).foldr
    (fun p acc => SongRetriever.entryLine p.1 p.2 ++ '\n' :: acc) [] =
    SongRetriever.save_hash_cache X
  rw [SongRetriever.sortByKey_idem]
  rfl

/-- Concrete round trip of a two-entry mapping. -/
theorem hash_cache_roundtrip_witness :
    SongRetriever.cacheWF [(strOf "b/song.mp3", ⟨strOf "ab12", 10, strOf "1.5"⟩),
      (strOf "a.mp3", ⟨strOf "ff", 3, strOf "2.0"⟩)]
    ∧ (SongRetriever.load_hash_cache (SongRetriever.save_hash_cache
        [(strOf "b/song.mp3", ⟨strOf "ab12", 10, strOf "1.5"⟩),
         (strOf "a.mp3", ⟨strOf "ff", 3, strOf "2.0"⟩)]) =
      SongRetriever.sortByKey [(strOf "b/song.mp3", ⟨strOf "ab12", 10, strOf "1.5"⟩),
        (strOf "a.mp3", ⟨strOf "ff", 3, strOf "2.0"⟩)]
    ∧ (SongRetriever.sortByKey [(strOf "b/song.mp3", ⟨strOf "ab12", 10, strOf "1.5"⟩),
        (strOf "a.mp3", ⟨strOf "ff", 3, strOf "2.0"⟩)]).Perm
      [(strOf "b/song.mp3", ⟨strOf "ab12", 10, strOf "1.5"⟩),
       (strOf "a.mp3", ⟨strOf "ff", 3, strOf "2.0"⟩)]
    ∧ SongRetriever.save_hash_cache (SongRetriever.load_hash_cache
        (SongRetriever.save_hash_cache [(strOf "b/song.mp3", ⟨strOf "ab12", 10, strOf "1.5"⟩),
          (strOf "a.mp3", ⟨strOf "ff", 3, strOf "2.0"⟩)])) =
      SongRetriever.save_hash_cache [(strOf "b/song.mp3", ⟨strOf "ab12", 10, strOf "1.5"⟩),
        (strOf "a.mp3", ⟨strOf "ff", 3, strOf "2.0"⟩)]) :=
  ⟨by decide, hash_cache_roundtrip _ (by decide)⟩
